import Mathlib

/-!
Shallow embedding of `scripts/cleanup-old-packages.py`: the priority
classifier and the grouped eviction loop, together with proofs of the
spec's claims about them.

Modelling conventions:
* Python strings are `List Char`.
* Machine integers are `Nat`/`Int` (sizes and build numbers are
  non-negative in the registry metadata; the running total is an `Int`
  because the loop subtracts from it).
* The anaconda registry, the confirmation prompt and printing are
  collaborators: deletions actually issued are recorded in the
  `removed` field of the result, and interactive confirmation answers
  are supplied by an oracle list of booleans consumed in prompt order.
* The label pre-filter (line 113-114 of the source) happens before any
  logic modelled here, so `files` below is the post-filter list.
-/

/-- One registry file (the fields of the anaconda metadata dictionary the
script reads).  `build_number_attr` models `attrs["build_number"]` (conda,
an integer) and `build_no_attr` models `attrs["build_no"]` (wheels, a
numeric string) after the `int(...)` normalisation; a missing field is the
source's default `0`. -/
structure RawFile where
  version : List Char
  build_number_attr : Nat
  build_no_attr : Nat
  size : Nat
  upload_time : Nat
  full_name : List Char
deriving Repr, DecidableEq

/-- `build_number` (source lines 42-57): the larger of the two declared
build-number fields. -/
def build_number (f : RawFile) : Nat :=
  max f.build_number_attr f.build_no_attr

/-- `max_build` (source lines 60-71): maximum build number of a list of
files, `0` for the empty list (`max(..., default=0)`). -/
def max_build (files : List RawFile) : Nat :=
  (files.map build_number).foldr max 0

/-- Single consumption step for one-or-more digits, the `\d+` atom of the
source regex: succeeds iff the first character is a digit, and consumes the
maximal run of digits.  Maximal munch is equivalent to the regex's greedy
matching with backtracking here, because in the source pattern every `\d+`
is followed either by a character that is never a digit (a dot or the
letters `d`/`r`) or by nothing. -/
def eat_digits (s : List Char) : Option (List Char) :=
  match s with
  | [] => none
  | c :: cs => if c.isDigit then some (cs.dropWhile Char.isDigit) else none

/-- Consume one expected character (a literal atom of the regex). -/
def eat_char (ch : Char) (s : List Char) : Option (List Char) :=
  match s with
  | [] => none
  | c :: cs => if c == ch then some cs else none

/-- Consume an expected literal character sequence. -/
def eat_lit : List Char → List Char → Option (List Char)
  | [], s => some s
  | _ :: _, [] => none
  | l :: ls, c :: cs => if c == l then eat_lit ls cs else none

/-- The `(dev|rc)` alternation of the source regex: try `dev` first, then
`rc` (the two branches cannot both match, so order is immaterial). -/
def eat_tag (s : List Char) : Option (List Char) :=
  match eat_lit (['d', 'e', 'v']) s with
  | some r => some r
  | none => eat_lit (['r', 'c']) s

/-- The `(dev|rc)\d+` tail of the source regex at the current position. -/
def tag_digits (s : List Char) : Bool :=
  match eat_tag s with
  | some r => (eat_digits r).isSome
  | none => false

/-- The `\.?(dev|rc)\d+` tail of the source regex: the optional dot is
greedy, and on failure the regex retries without consuming it — exactly the
boolean disjunction below. -/
def opt_dot_tag (s : List Char) : Bool :=
  (match eat_char '.' s with
   | some r => tag_digits r
   | none => false)
  || tag_digits s

/-- `is_dev_version` (source lines 30-39):
`bool(re.search(r"^\d+\.\d+\.\d+\.?(dev|rc)\d+", version))`.
The `^` anchor makes `re.search` a match at the start of the string; the
pattern is not anchored at the end, so trailing characters after the tag
digits are allowed. -/
def is_dev_version (s : List Char) : Bool :=
  match eat_digits s with
  | none => false
  | some s1 =>
    match eat_char '.' s1 with
    | none => false
    | some s2 =>
      match eat_digits s2 with
      | none => false
      | some s3 =>
        match eat_char '.' s3 with
        | none => false
        | some s4 =>
          match eat_digits s4 with
          | none => false
          | some s5 => opt_dot_tag s5

/-- The pattern of the spec, stated declaratively: a numeric triplet,
an optional dot, a literal `dev` or `rc` tag and trailing digits, matched
at the start of the string (the source regex is anchored by `^` only, so an
arbitrary remainder may follow the tag digits). -/
def dev_pattern (s : List Char) : Prop :=
  ∃ a b c dot tag d rest : List Char,
    a ≠ [] ∧ (∀ x ∈ a, x.isDigit = true) ∧
    b ≠ [] ∧ (∀ x ∈ b, x.isDigit = true) ∧
    c ≠ [] ∧ (∀ x ∈ c, x.isDigit = true) ∧
    (dot = [] ∨ dot = ['.']) ∧
    (tag = ['d', 'e', 'v'] ∨ tag = ['r', 'c']) ∧
    d ≠ [] ∧ (∀ x ∈ d, x.isDigit = true) ∧
    s = a ++ '.' :: (b ++ '.' :: (c ++ (dot ++ (tag ++ (d ++ rest)))))

/-- `files_by_version[v]` (source lines 115-117): the files of version `v`
in listing order. -/
def files_by_version (files : List RawFile) (v : List Char) : List RawFile :=
  files.filter (fun f => f.version == v)

/-- `last_dev` (source lines 121-124): the last development version in the
scan order of the version sequence — deliberately not the semantic maximum
(the source's own NIT comment). -/
def last_dev (versions : List (List Char)) : Option (List Char) :=
  versions.foldl (fun acc v => if is_dev_version v then some v else acc) none

/-- The priority assignment of source lines 135-148 for one file, given the
whole snapshot.  The source initialises the priority to `4` and overwrites
it through the `if`/`elif` chain; a file whose version never occurs in
`versions` is never visited by the classification loop and keeps no
`cleanup_priority` key at all, which is modelled by `none`.  The source
iterates over `versions` (with possible duplicates) and over
`files_by_version[version]`; since the assigned value depends only on the
file and the snapshot, every visit assigns the same value and a per-file
function is faithful. -/
def classifyFile (versions : List (List Char)) (files : List RawFile)
    (f : RawFile) : Option Nat :=
  if f.version ∈ versions then
    some (
      if build_number f == max_build (files_by_version files f.version) then
        (if is_dev_version f.version
            && !(last_dev versions == some f.version) then 2 else 4)
      else if is_dev_version f.version
          && (last_dev versions == some f.version) then 3
      else if is_dev_version f.version then 0
      else 1)
  else none

/-- The classification pass over the whole file list (source lines
131-148), keeping the listing order. -/
def classifyAll (versions : List (List Char)) (files : List RawFile) :
    List (RawFile × Option Nat) :=
  files.map (fun f => (f, classifyFile versions files f))

/-- The decision table exactly as the spec words it, first match wins:
top build of a dev version that is not the last-seen dev version -> 2;
any other top build -> 4; non-top build of the last-seen dev version -> 3;
non-top build of any other dev version -> 0; otherwise -> 1. -/
def spec_priority (is_top is_dev is_last_dev : Bool) : Nat :=
  if is_top && is_dev && !is_last_dev then 2
  else if is_top then 4
  else if is_last_dev then 3
  else if is_dev then 0
  else 1

/-- A classified file: a file together with the `cleanup_priority` the
classification pass stored on it. -/
structure CFile where
  file : RawFile
  cleanup_priority : Nat
deriving Repr, DecidableEq

/-- The sort key `(cleanup_priority, upload_time)` of source line 160,
compared lexicographically as Python compares tuples (strict order). -/
def key_lt (x y : CFile) : Bool :=
  decide (x.cleanup_priority < y.cleanup_priority)
  || (x.cleanup_priority == y.cleanup_priority
      && decide (x.file.upload_time < y.file.upload_time))

/-- The corresponding non-strict lexicographic order on the sort key. -/
def key_le (x y : CFile) : Prop :=
  x.cleanup_priority < y.cleanup_priority
  ∨ (x.cleanup_priority = y.cleanup_priority
     ∧ x.file.upload_time ≤ y.file.upload_time)

/-- Stable insertion of one file into an already sorted list: the new file
goes after every existing file whose key is not strictly greater, so files
with equal keys keep their original relative order, as Python's stable
sort guarantees. -/
def insertSorted (x : CFile) : List CFile → List CFile
  | [] => [x]
  | y :: ys => if key_lt x y then x :: y :: ys else y :: insertSorted x ys

/-- A stable sort by `(cleanup_priority, upload_time)` (source line 160). -/
def sortByKey (l : List CFile) : List CFile :=
  l.foldl (fun acc x => insertSorted x acc) []

/-- `files.sort(key=itemgetter("cleanup_priority", "upload_time"))` as a
fallible step: Python's `list.sort` computes the key of every element
up front, so a single file missing the `cleanup_priority` key raises
`KeyError`, modelled by `none`. -/
def trySort (l : List (RawFile × Option Nat)) : Option (List CFile) :=
  if l.all (fun p => p.2.isSome) then
    some (sortByKey (l.map (fun p => { file := p.1,
                                       cleanup_priority := p.2.getD 0 })))
  else none

/-- The limit and mode arguments of `cleanup_packages` that the eviction
loop reads (the CLI parses them as Python ints, hence `Int`). -/
structure CleanupConfig where
  max_size : Option Int
  max_priority : Option Int
  keep_count : Option Int
  dry_run : Bool
  force : Bool
deriving Repr, DecidableEq

/-- `need_clean` (source lines 170-177) for the front file `f` when the
queue currently holds `qlen` files and the running total is `total`. -/
def need_clean (cfg : CleanupConfig) (f : CFile) (total : Int)
    (qlen : Nat) : Bool :=
  (match cfg.max_size with
   | some m => decide (total > m)
   | none => false)
  || (match cfg.max_priority with
      | some p => decide ((f.cleanup_priority : Int) ≤ p)
      | none => false)
  || (match cfg.keep_count with
      | some k => decide ((qlen : Int) > k)
      | none => false)

/-- The `(version, build)` group of a classified file, as read by the loop
(source line 167). -/
def group_of (f : CFile) : List Char × Nat :=
  (f.file.version, build_number f.file)

/-- The group test of source lines 180-183:
`last_version is None or (last_version != version or last_build != build)`.
`true` means the front file does not continue the last deleted group. -/
def group_differs (last : Option (List Char × Nat)) (version : List Char)
    (build : Nat) : Bool :=
  match last with
  | none => true
  | some (lv, lb) => lv != version || lb != build

/-- What one run of the eviction loop did: `deleted` are the files popped
from the queue in order (counted as cleaned), `removed` the subset for
which `remove_dist` was actually invoked on the registry, `cleanup_size`
the reported reclaimed byte total, `remaining` the queue at loop exit. -/
structure EvictResult where
  deleted : List CFile
  removed : List CFile
  cleanup_size : Nat
  remaining : List CFile
deriving Repr, DecidableEq

/-- The eviction loop of source lines 162-205.  `confirms` is the oracle
of interactive answers, consumed only when `bool_input` is reached (not in
dry-run mode and not under `--force`).  Each iteration either pops the
front file or exits, so the loop is structural recursion on the queue. -/
def evictionLoop (cfg : CleanupConfig) :
    List CFile → Int → Option (List Char × Nat) → List Bool → EvictResult
  | [], _, _, _ =>
    { deleted := [], removed := [], cleanup_size := 0, remaining := [] }
  | f :: rest, total, lastGrp, confirms =>
    if !need_clean cfg f total (rest.length + 1)
        && group_differs lastGrp f.file.version (build_number f.file) then
      { deleted := [], removed := [], cleanup_size := 0,
        remaining := f :: rest }
    else
      let asked := !cfg.dry_run && !cfg.force
      let answer := asked && confirms.headD false
      let confirms2 := if asked then confirms.tail else confirms
      let do_remove := !cfg.dry_run && (cfg.force || answer)
      let sub := evictionLoop cfg rest (total - (f.file.size : Int))
        (some (f.file.version, build_number f.file)) confirms2
      { deleted := f :: sub.deleted,
        removed := if do_remove then f :: sub.removed else sub.removed,
        cleanup_size := f.file.size + sub.cleanup_size,
        remaining := sub.remaining }

/-- `total_size` (source line 128): the byte total of the (label-filtered)
file list before the loop starts. -/
def total_size (files : List RawFile) : Int :=
  (files.map (fun f => (f.size : Int))).foldr (· + ·) 0

/-- The whole planner of `cleanup_packages` after the registry snapshot is
read: classification, the fallible sort, then the eviction loop started
with no last-deleted group. -/
def cleanup_plan (versions : List (List Char)) (files : List RawFile)
    (cfg : CleanupConfig) (confirms : List Bool) : Option EvictResult :=
  (trySort (classifyAll versions files)).map
    (fun q => evictionLoop cfg q (total_size files) none confirms)

/-! Concrete snapshots used to evaluate the claims on explicit inputs. -/

/-- The version sequence of the worked example in the CLI help text. -/
def wVersions : List (List Char) :=
  ["1.0".data, "1.0".data, "1.2dev1".data, "2.0".data, "2.1dev1".data,
   "2.1dev2".data]

/-- Worked example file `pkg_v1.0_bld-0`. -/
def w1 : RawFile := ⟨"1.0".data, 0, 0, 1, 1, "pkg_v1.0_bld-0".data⟩

/-- Worked example file `pkg_v1.0_bld-1`. -/
def w2 : RawFile := ⟨"1.0".data, 1, 0, 1, 2, "pkg_v1.0_bld-1".data⟩

/-- Worked example file `pkg_v1.2dev1_bld-0`. -/
def w3 : RawFile := ⟨"1.2dev1".data, 0, 0, 1, 3, "pkg_v1.2dev1_bld-0".data⟩

/-- Worked example file `pkg_v2.0_bld-0`. -/
def w4 : RawFile := ⟨"2.0".data, 0, 0, 1, 4, "pkg_v2.0_bld-0".data⟩

/-- Worked example file `pkg_v2.1dev1_bld-0`. -/
def w5 : RawFile := ⟨"2.1dev1".data, 0, 0, 1, 5, "pkg_v2.1dev1_bld-0".data⟩

/-- Worked example file `pkg_v2.1dev1_bld-1`. -/
def w6 : RawFile := ⟨"2.1dev1".data, 1, 0, 1, 6, "pkg_v2.1dev1_bld-1".data⟩

/-- Worked example file `pkg_v2.1dev2_bld-0`. -/
def w7 : RawFile := ⟨"2.1dev2".data, 0, 0, 1, 7, "pkg_v2.1dev2_bld-0".data⟩

/-- Worked example file `pkg_v2.1dev2_bld-2`. -/
def w8 : RawFile := ⟨"2.1dev2".data, 2, 0, 1, 8, "pkg_v2.1dev2_bld-2".data⟩

/-- The eight files of the worked example, in help-text order. -/
def wFiles : List RawFile := [w1, w2, w3, w4, w5, w6, w7, w8]

/-- A snapshot on which a `(version, build)` group is interleaved with a
same-priority file of another group in the sorted queue: version `1.0.0`
has a top build `5` (file `t`) and two sibling artifacts of build `0`
(`a1`, `a2`, upload times 1 and 3); version `2.0.0` has a top build `7`
(`u`) and an old build `0` (`x`, upload time 2). -/
def exVersions : List (List Char) := ["1.0.0".data, "2.0.0".data]

/-- Interleaving snapshot: artifact `a1`, group (`1.0.0`, 0), oldest. -/
def exA1 : RawFile := ⟨"1.0.0".data, 0, 0, 1, 1, "a1".data⟩

/-- Interleaving snapshot: top build `t` of version `1.0.0`. -/
def exT : RawFile := ⟨"1.0.0".data, 5, 0, 1, 10, "t".data⟩

/-- Interleaving snapshot: old build `x` of version `2.0.0`, uploaded
between the two `1.0.0` build-0 artifacts. -/
def exX : RawFile := ⟨"2.0.0".data, 0, 0, 1, 2, "x".data⟩

/-- Interleaving snapshot: top build `u` of version `2.0.0`. -/
def exU : RawFile := ⟨"2.0.0".data, 7, 0, 1, 11, "u".data⟩

/-- Interleaving snapshot: artifact `a2`, same group (`1.0.0`, 0) as
`a1`, uploaded later than `x`. -/
def exA2 : RawFile := ⟨"1.0.0".data, 0, 0, 1, 3, "a2".data⟩

/-- The interleaving snapshot's file listing. -/
def exFiles : List RawFile := [exA1, exT, exX, exU, exA2]

/-- Limits for the interleaving snapshot: keep 4 of the 5 files, dry run. -/
def exCfg : CleanupConfig := ⟨none, none, some 4, true, false⟩

/-- A sample classified file with group (`1.0.0`, 0) and priority 1. -/
def sampleA : CFile := ⟨⟨"1.0.0".data, 0, 0, 2, 1, "sampleA".data⟩, 1⟩

/-- A sample classified file with group (`2.0.0`, 0) and priority 1. -/
def sampleB : CFile := ⟨⟨"2.0.0".data, 0, 0, 3, 2, "sampleB".data⟩, 1⟩

/-! Helper lemmas about the eviction loop. -/

/-- The loop on an empty queue does nothing. -/
theorem evictionLoop_nil (cfg : CleanupConfig) (total : Int)
    (last : Option (List Char × Nat)) (confirms : List Bool) :
    evictionLoop cfg [] total last confirms =
      { deleted := [], removed := [], cleanup_size := 0, remaining := [] } :=
  rfl

/-- The loop exits untouched when the front file needs no cleaning and
does not continue the last deleted group. -/
theorem evictionLoop_stop (cfg : CleanupConfig) (f : CFile)
    (rest : List CFile) (total : Int) (last : Option (List Char × Nat))
    (confirms : List Bool)
    (h : (!need_clean cfg f total (rest.length + 1)
          && group_differs last f.file.version (build_number f.file))
         = true) :
    evictionLoop cfg (f :: rest) total last confirms =
      { deleted := [], removed := [], cleanup_size := 0,
        remaining := f :: rest } := by
  simp only [evictionLoop, h, if_true]

/-- The loop pops the front file otherwise, recording its size, setting
the last-deleted group to the file's group, and calling the registry
exactly when not in dry-run mode and the removal is forced or confirmed. -/
theorem evictionLoop_go (cfg : CleanupConfig) (f : CFile)
    (rest : List CFile) (total : Int) (last : Option (List Char × Nat))
    (confirms : List Bool)
    (h : (!need_clean cfg f total (rest.length + 1)
          && group_differs last f.file.version (build_number f.file))
         = false) :
    evictionLoop cfg (f :: rest) total last confirms =
      { deleted := f :: (evictionLoop cfg rest (total - (f.file.size : Int))
          (some (f.file.version, build_number f.file))
          (if !cfg.dry_run && !cfg.force then confirms.tail
           else confirms)).deleted,
        removed :=
          if !cfg.dry_run && (cfg.force
              || ((!cfg.dry_run && !cfg.force) && confirms.headD false)) then
            f :: (evictionLoop cfg rest (total - (f.file.size : Int))
              (some (f.file.version, build_number f.file))
              (if !cfg.dry_run && !cfg.force then confirms.tail
               else confirms)).removed
          else
            (evictionLoop cfg rest (total - (f.file.size : Int))
              (some (f.file.version, build_number f.file))
              (if !cfg.dry_run && !cfg.force then confirms.tail
               else confirms)).removed,
        cleanup_size := f.file.size
          + (evictionLoop cfg rest (total - (f.file.size : Int))
              (some (f.file.version, build_number f.file))
              (if !cfg.dry_run && !cfg.force then confirms.tail
               else confirms)).cleanup_size,
        remaining := (evictionLoop cfg rest (total - (f.file.size : Int))
          (some (f.file.version, build_number f.file))
          (if !cfg.dry_run && !cfg.force then confirms.tail
           else confirms)).remaining } := by
  simp only [evictionLoop, h, Bool.false_eq_true, if_false]

/-- The group test succeeds exactly when no file has been deleted yet or
the front file's pair differs from the last deleted pair. -/
theorem group_differs_iff (last : Option (List Char × Nat))
    (v : List Char) (b : Nat) :
    group_differs last v b = true ↔ (last = none ∨ last ≠ some (v, b)) := by
  cases last with
  | none => simp [group_differs]
  | some p =>
    cases p with
    | mk lv lb =>
      simp [group_differs, bne_iff_ne, Prod.mk.injEq, not_and_or]
      tauto

/-- The group test fails exactly on the last deleted pair itself. -/
theorem group_differs_eq_false (last : Option (List Char × Nat))
    (v : List Char) (b : Nat) :
    group_differs last v b = false ↔ last = some (v, b) := by
  cases last with
  | none => simp [group_differs]
  | some p =>
    cases p with
    | mk lv lb =>
      simp [group_differs, bne_iff_ne, Prod.mk.injEq, not_and_or]

/-- C8: the eviction loop terminates, each iteration removing the front
file or exiting: the popped files followed by the queue at exit give back
the input queue exactly; on an empty file list the loop performs zero
iterations and reports zero reclaimed bytes. -/
theorem c8_loop_partitions_queue (cfg : CleanupConfig) (queue : List CFile)
    (total : Int) (last : Option (List Char × Nat)) (confirms : List Bool) :
    (evictionLoop cfg queue total last confirms).deleted
      ++ (evictionLoop cfg queue total last confirms).remaining = queue
    ∧ evictionLoop cfg [] total last confirms =
        { deleted := [], removed := [], cleanup_size := 0,
          remaining := [] } := by
  refine ⟨?_, rfl⟩
  induction queue generalizing total last confirms with
  | nil => rfl
  | cons f rest ih =>
    by_cases h : (!need_clean cfg f total (rest.length + 1)
        && group_differs last f.file.version (build_number f.file)) = true
    · rw [evictionLoop_stop cfg f rest total last confirms h]; rfl
    · rw [evictionLoop_go cfg f rest total last confirms
        (Bool.eq_false_iff.mpr h)]
      simp only [List.cons_append, List.cons.injEq, true_and]
      exact ih _ _ _

/-- C7: in dry-run mode the planner is a pure, state-preserving function
of the snapshot and limits: it issues no registry removals and never
consults the confirmation prompt, so its outcome does not depend on the
confirmation oracle at all, and a second run over the unchanged snapshot
returns the identical reclaimed-size total and deletion sequence. -/
theorem c7_dry_run_deterministic (cfg : CleanupConfig) (queue : List CFile)
    (total : Int) (last : Option (List Char × Nat))
    (confirms1 confirms2 : List Bool) (h : cfg.dry_run = true) :
    evictionLoop cfg queue total last confirms1
      = evictionLoop cfg queue total last confirms2
    ∧ (evictionLoop cfg queue total last confirms1).removed = [] := by
  induction queue generalizing total last confirms1 confirms2 with
  | nil => exact ⟨rfl, rfl⟩
  | cons f rest ih =>
    by_cases hc : (!need_clean cfg f total (rest.length + 1)
        && group_differs last f.file.version (build_number f.file)) = true
    · rw [evictionLoop_stop cfg f rest total last confirms1 hc,
          evictionLoop_stop cfg f rest total last confirms2 hc]
      exact ⟨rfl, rfl⟩
    · have hc2 := Bool.eq_false_iff.mpr hc
      rw [evictionLoop_go cfg f rest total last confirms1 hc2,
          evictionLoop_go cfg f rest total last confirms2 hc2]
      simp only [h, Bool.not_true, Bool.false_and, Bool.and_false,
        Bool.false_or, if_false, Bool.false_eq_true]
      refine ⟨?_, ?_⟩
      · rw [(ih (total - (f.file.size : Int))
          (some (f.file.version, build_number f.file)) confirms1 confirms2).1]
      · simpa using (ih (total - (f.file.size : Int))
          (some (f.file.version, build_number f.file)) confirms1 confirms2).2

/-- C7 witness at a concrete queue and two different oracles. -/
theorem c7_dry_run_deterministic_witness :
    evictionLoop ⟨none, none, some 0, true, false⟩ [sampleA, sampleB] 5 none
        [true, true]
      = evictionLoop ⟨none, none, some 0, true, false⟩ [sampleA, sampleB] 5
          none [false]
    ∧ (evictionLoop ⟨none, none, some 0, true, false⟩ [sampleA, sampleB] 5
        none [true, true]).removed = [] :=
  c7_dry_run_deterministic ⟨none, none, some 0, true, false⟩
    [sampleA, sampleB] 5 none [true, true] [false] rfl

/-- C9: with `dry_run` and `force` both unset and the interactive
confirmation declined (oracle answer `false`), the registry removal is not
issued for the front file, yet the file is still removed from the queue,
its size is still subtracted from the running total and added to the
reported cleaned size, and its `(version, build)` pair still becomes the
last-deleted-group marker of the continuing loop. -/
theorem c9_declined_confirmation_effects (cfg : CleanupConfig) (f : CFile)
    (rest : List CFile) (total : Int) (last : Option (List Char × Nat))
    (cs : List Bool) (hd : cfg.dry_run = false) (hf : cfg.force = false)
    (h : (!need_clean cfg f total (rest.length + 1)
          && group_differs last f.file.version (build_number f.file))
         = false) :
    evictionLoop cfg (f :: rest) total last (false :: cs) =
      { deleted := f :: (evictionLoop cfg rest (total - (f.file.size : Int))
          (some (f.file.version, build_number f.file)) cs).deleted,
        removed := (evictionLoop cfg rest (total - (f.file.size : Int))
          (some (f.file.version, build_number f.file)) cs).removed,
        cleanup_size := f.file.size
          + (evictionLoop cfg rest (total - (f.file.size : Int))
              (some (f.file.version, build_number f.file)) cs).cleanup_size,
        remaining := (evictionLoop cfg rest (total - (f.file.size : Int))
          (some (f.file.version, build_number f.file)) cs).remaining } := by
  rw [evictionLoop_go cfg f rest total last (false :: cs) h]
  simp [hd, hf]

/-- C9 witness: one file, keep-count 0, confirmation declined: the file is
popped and counted as cleaned but no registry removal happens. -/
theorem c9_declined_confirmation_effects_witness :
    evictionLoop ⟨none, none, some 0, false, false⟩ [sampleA] 2 none [false]
      = { deleted := [sampleA], removed := [], cleanup_size := 2,
          remaining := [] } := by
  rw [c9_declined_confirmation_effects ⟨none, none, some 0, false, false⟩
    sampleA [] 2 none [] rfl rfl (by decide)]
  decide

/-- C2 counterexample: on the interleaving snapshot (keep-count 4,
dry run), the loop deletes `a1` of group (`1.0.0`, build 0) and then
stops at `x`, although `a2` of the very same group comes later in the
sorted queue: the deleted names are exactly `[a1]` and the surviving queue
is `[x, a2, t, u]`, so a group that deletion entered is left partially
deleted, refuting the claim as stated. -/
theorem c2_partial_group_counterexample :
    (exA1.version, build_number exA1) = (exA2.version, build_number exA2)
    ∧ (cleanup_plan exVersions exFiles exCfg []).map
        (fun e => (e.deleted.map (fun f => f.file.full_name),
                   e.remaining.map (fun f => f.file.full_name)))
      = some (["a1".data], ["x".data, "a2".data, "t".data, "u".data]) := by
  decide

/-- C2 (amended): once the executor deletes a file with group
`(V, B)` — so the last-deleted marker is `some (V, B)` — the contiguous
run of files with the same `(V, B)` at the front of the remaining queue is
deleted before the loop can stop, regardless of the individual
`need_clean` values of those files.  (Files of group `(V, B)` that sit
behind an intervening file of a different group are not covered: the loop
may stop at the intervening file, as the counterexample shows.) -/
theorem c2_group_run_deleted (cfg : CleanupConfig) (V : List Char) (B : Nat)
    (queue : List CFile) (total : Int) (confirms : List Bool) :
    ∃ t, (evictionLoop cfg queue total (some (V, B)) confirms).deleted
      = queue.takeWhile
          (fun f => f.file.version == V && build_number f.file == B)
        ++ t := by
  induction queue generalizing total confirms with
  | nil => exact ⟨[], rfl⟩
  | cons f rest ih =>
    by_cases hg : (f.file.version == V && build_number f.file == B) = true
    · obtain ⟨hgv, hgb⟩ := Bool.and_eq_true_iff.mp hg
      have hv : f.file.version = V := eq_of_beq hgv
      have hb : build_number f.file = B := eq_of_beq hgb
      have hstop : (!need_clean cfg f total (rest.length + 1)
          && group_differs (some (V, B)) f.file.version
              (build_number f.file)) = false := by
        have : group_differs (some (V, B)) f.file.version
            (build_number f.file) = false := by
          rw [group_differs_eq_false, hv, hb]
        simp [this]
      rw [evictionLoop_go cfg f rest total (some (V, B)) confirms hstop]
      obtain ⟨t, ht⟩ := ih (total - (f.file.size : Int))
        (if !cfg.dry_run && !cfg.force then confirms.tail else confirms)
      refine ⟨t, ?_⟩
      simp only [List.takeWhile_cons, hg, if_true, List.cons_append,
        List.cons.injEq, true_and]
      rw [hv, hb]
      exact ht
    · refine ⟨(evictionLoop cfg (f :: rest) total (some (V, B))
        confirms).deleted, ?_⟩
      simp only [List.takeWhile_cons, Bool.eq_false_iff.mpr hg,
        Bool.false_eq_true, if_false, List.nil_append]

/-- C4: at each iteration with front file `f`, `need_clean` is true
exactly when a configured size cap is still exceeded, or `f`'s priority is
at or below a configured priority cap, or the queue is still longer than a
configured keep-count; the loop stops — evaluating no further files —
exactly when `need_clean` is false and `f`'s `(version, build)` pair
differs from the last deleted file's pair (or nothing has been deleted
yet); and when the size cap is already satisfied with the other limits
unset and nothing deleted yet, the loop stops at the first file having
deleted nothing. -/
theorem c4_need_clean_and_stop (cfg : CleanupConfig) (f : CFile)
    (rest : List CFile) (total : Int) (last : Option (List Char × Nat))
    (confirms : List Bool) :
    (need_clean cfg f total (rest.length + 1) = true ↔
      ((∃ m, cfg.max_size = some m ∧ total > m)
       ∨ (∃ p, cfg.max_priority = some p ∧ (f.cleanup_priority : Int) ≤ p)
       ∨ (∃ k, cfg.keep_count = some k
            ∧ ((rest.length + 1 : Nat) : Int) > k)))
    ∧ ((evictionLoop cfg (f :: rest) total last confirms).deleted = []
        ∧ (evictionLoop cfg (f :: rest) total last confirms).remaining
            = f :: rest
      ↔ (need_clean cfg f total (rest.length + 1) = false
         ∧ (last = none
            ∨ last ≠ some (f.file.version, build_number f.file))))
    ∧ (cfg.max_priority = none → cfg.keep_count = none → last = none →
       ∀ m, cfg.max_size = some m → total ≤ m →
         evictionLoop cfg (f :: rest) total last confirms =
           { deleted := [], removed := [], cleanup_size := 0,
             remaining := f :: rest }) := by
  refine ⟨?_, ?_, ?_⟩
  · obtain ⟨ms, mp, kc, dr, fo⟩ := cfg
    cases ms <;> cases mp <;> cases kc <;> simp [need_clean, or_assoc]
  · by_cases hc : (!need_clean cfg f total (rest.length + 1)
        && group_differs last f.file.version (build_number f.file)) = true
    · rw [evictionLoop_stop cfg f rest total last confirms hc]
      obtain ⟨h1, h2⟩ := Bool.and_eq_true_iff.mp hc
      rw [Bool.not_eq_true'] at h1
      simp [h1, (group_differs_iff _ _ _).mp h2]
    · rw [evictionLoop_go cfg f rest total last confirms
        (Bool.eq_false_iff.mpr hc)]
      constructor
      · intro h1
        exact absurd h1.1 (List.cons_ne_nil _ _)
      · rintro ⟨hnc, hgr⟩
        exfalso
        apply hc
        rw [Bool.and_eq_true_iff]
        exact ⟨by simp [hnc], (group_differs_iff _ _ _).mpr hgr⟩
  · intro hmp hkc hlast m hms htot
    have hnc : need_clean cfg f total (rest.length + 1) = false := by
      simp [need_clean, hms, hmp, hkc]
      omega
    apply evictionLoop_stop
    simp [hnc, hlast, group_differs]

/-- C4 witness: size cap 10 already satisfied by total 5, other limits
unset, nothing deleted yet: the loop stops at the first file and deletes
nothing. -/
theorem c4_need_clean_and_stop_witness :
    evictionLoop ⟨some 10, none, none, true, false⟩ [sampleA] 5 none [] =
      { deleted := [], removed := [], cleanup_size := 0,
        remaining := [sampleA] } :=
  (c4_need_clean_and_stop ⟨some 10, none, none, true, false⟩ sampleA [] 5
    none []).2.2 rfl rfl rfl 10 rfl (by decide)

/-- With only a keep-count limit set and more than `N + k` files queued,
the loop deletes exactly the first `k + 1` files, provided the file at
position `k` (the last deleted one) and the file at position `k + 1` (the
first kept one, when it exists) belong to different groups. -/
theorem keep_count_run (N : Nat) (cfg : CleanupConfig)
    (hms : cfg.max_size = none) (hmp : cfg.max_priority = none)
    (hkc : cfg.keep_count = some (N : Int)) :
    ∀ (k : Nat) (queue : List CFile) (total : Int)
      (last : Option (List Char × Nat)) (confirms : List Bool),
      queue.length = N + k + 1 →
      (match queue.drop k with
       | a :: b :: _ => group_of a ≠ group_of b
       | _ => True) →
      (evictionLoop cfg queue total last confirms).deleted
          = queue.take (k + 1)
      ∧ (evictionLoop cfg queue total last confirms).remaining
          = queue.drop (k + 1) := by
  intro k
  induction k with
  | zero =>
    intro queue total last confirms hlen hb
    cases queue with
    | nil => simp at hlen
    | cons f rest =>
      have hrest : rest.length = N := by simpa using hlen
      have hnc : need_clean cfg f total (rest.length + 1) = true := by
        simp [need_clean, hms, hmp, hkc]
        omega
      rw [evictionLoop_go cfg f rest total last confirms (by simp [hnc])]
      cases rest with
      | nil => simp [evictionLoop_nil]
      | cons g rest2 =>
        have hrest2 : rest2.length + 1 = N := by simpa using hrest
        have hnc2 : need_clean cfg g (total - (f.file.size : Int))
            (rest2.length + 1) = false := by
          simp [need_clean, hms, hmp, hkc]
          omega
        have hfg : group_of f ≠ group_of g := by
          simpa using hb
        have hdif : group_differs
            (some (f.file.version, build_number f.file)) g.file.version
            (build_number g.file) = true := by
          rw [group_differs_iff]
          right
          simp only [ne_eq, Option.some.injEq]
          simpa [group_of] using hfg
        rw [evictionLoop_stop cfg g rest2 (total - (f.file.size : Int))
          (some (f.file.version, build_number f.file)) _
          (by simp [hnc2, hdif])]
        simp
  | succ k ih =>
    intro queue total last confirms hlen hb
    cases queue with
    | nil => simp at hlen
    | cons f rest =>
      have hrest : rest.length = N + k + 1 := by simpa using hlen
      have hnc : need_clean cfg f total (rest.length + 1) = true := by
        simp [need_clean, hms, hmp, hkc]
        omega
      rw [evictionLoop_go cfg f rest total last confirms (by simp [hnc])]
      obtain ⟨hd, hr⟩ := ih rest (total - (f.file.size : Int))
        (some (f.file.version, build_number f.file))
        (if !cfg.dry_run && !cfg.force then confirms.tail else confirms)
        hrest hb
      refine ⟨?_, ?_⟩
      · rw [List.take_succ_cons]
        exact congrArg (f :: ·) hd
      · rw [List.drop_succ_cons]
        exact hr

/-- C6: with `keep_count = N` set and the size and priority limits unset,
starting with no deleted group the loop deletes exactly the first
`length - N` files of the queue (in queue order, which is ascending
priority-then-age order whenever the queue is sorted by that key, as the
final conjunct records), leaving exactly `N` files — provided there is no
group-continuation overrun, i.e. the front file at the moment the count
reaches `N` does not share its `(version, build)` group with the last
deleted file. -/
theorem c6_keep_count_exact (N : Nat) (cfg : CleanupConfig)
    (queue : List CFile) (total : Int) (confirms : List Bool)
    (hms : cfg.max_size = none) (hmp : cfg.max_priority = none)
    (hkc : cfg.keep_count = some (N : Int)) (hN : N ≤ queue.length)
    (hb : queue.length = N
      ∨ (match queue.drop (queue.length - N - 1) with
         | a :: b :: _ => group_of a ≠ group_of b
         | _ => True)) :
    (evictionLoop cfg queue total none confirms).deleted
        = queue.take (queue.length - N)
    ∧ (evictionLoop cfg queue total none confirms).remaining
        = queue.drop (queue.length - N)
    ∧ (evictionLoop cfg queue total none confirms).remaining.length = N
    ∧ (List.Pairwise key_le queue →
       List.Pairwise key_le
         (evictionLoop cfg queue total none confirms).deleted) := by
  obtain ⟨k, hk⟩ := Nat.exists_eq_add_of_le hN
  cases k with
  | zero =>
    have hk0 : queue.length - N = 0 := by omega
    rw [hk0]
    cases queue with
    | nil =>
      have hN0 : 0 = N := by simpa using hk
      refine ⟨rfl, rfl, ?_, fun _ => List.Pairwise.nil⟩
      simpa [evictionLoop_nil] using hN0
    | cons f rest =>
      have hk2 : rest.length + 1 = N := by simpa using hk
      have hnc : need_clean cfg f total (rest.length + 1) = false := by
        simp [need_clean, hms, hmp, hkc]
        omega
      rw [evictionLoop_stop cfg f rest total none confirms
        (by simp [hnc, group_differs])]
      refine ⟨rfl, rfl, ?_, fun _ => List.Pairwise.nil⟩
      simpa using hk2
  | succ k =>
    have hlen : queue.length = N + k + 1 := by omega
    have hk1 : queue.length - N = k + 1 := by omega
    have hb2 : (match queue.drop k with
        | a :: b :: _ => group_of a ≠ group_of b
        | _ => True) := by
      rcases hb with hEq | hb
      · exact absurd hEq (by omega)
      · have hkk : queue.length - N - 1 = k := by omega
        rw [hkk] at hb
        exact hb
    obtain ⟨hd, hr⟩ := keep_count_run N cfg hms hmp hkc k queue total none
      confirms hlen hb2
    rw [hk1]
    refine ⟨hd, hr, ?_, ?_⟩
    · rw [hr]
      simp [List.length_drop]
      omega
    · intro hp
      rw [hd]
      exact hp.sublist (List.take_sublist _ _)

/-- C6 witness: keep 1 of 2 files of different groups: exactly the first
(oldest, lowest-priority) file is deleted and 1 file remains. -/
theorem c6_keep_count_exact_witness :
    (evictionLoop ⟨none, none, some 1, true, false⟩ [sampleA, sampleB] 5
        none []).deleted = [sampleA, sampleB].take 1
    ∧ (evictionLoop ⟨none, none, some 1, true, false⟩ [sampleA, sampleB] 5
        none []).remaining = [sampleA, sampleB].drop 1
    ∧ (evictionLoop ⟨none, none, some 1, true, false⟩ [sampleA, sampleB] 5
        none []).remaining.length = 1
    ∧ (List.Pairwise key_le [sampleA, sampleB] →
       List.Pairwise key_le
         (evictionLoop ⟨none, none, some 1, true, false⟩ [sampleA, sampleB]
           5 none []).deleted) :=
  c6_keep_count_exact 1 ⟨none, none, some 1, true, false⟩ [sampleA, sampleB]
    5 [] rfl rfl (by decide) (by decide)
    (Or.inr (show group_of sampleA ≠ group_of sampleB by decide))

/-- Whatever the scan of the version sequence records as the last dev
version is itself a dev version. -/
theorem last_dev_is_dev (versions : List (List Char)) (v : List Char)
    (h : last_dev versions = some v) : is_dev_version v = true := by
  have H : ∀ (l : List (List Char)) (acc : Option (List Char)),
      (∀ w, acc = some w → is_dev_version w = true) →
      ∀ w,
        l.foldl (fun acc v => if is_dev_version v then some v else acc) acc
          = some w →
        is_dev_version w = true := by
    intro l
    induction l with
    | nil =>
      intro acc hacc w hw
      exact hacc w hw
    | cons x xs ih =>
      intro acc hacc w hw
      rw [List.foldl_cons] at hw
      refine ih _ ?_ w hw
      intro u hu
      by_cases hx : is_dev_version x = true
      · rw [if_pos hx] at hu
        cases hu
        exact hx
      · rw [if_neg hx] at hu
        exact hacc u hu
  refine H versions none (fun w hw => by cases hw) v ?_
  rw [last_dev] at h
  exact h

/-- C1: for every snapshot, the classifier assigns each file (of a listed
version) exactly the priority of the spec's five-way ordered decision
table, evaluated at "is the file's build the version's maximum build",
"is the version a dev version", and "is the version the last-seen dev
version". -/
theorem c1_classifier_matches_spec_table (versions : List (List Char))
    (files : List RawFile) (f : RawFile) (h : f.version ∈ versions) :
    classifyFile versions files f =
      some (spec_priority
        (build_number f == max_build (files_by_version files f.version))
        (is_dev_version f.version)
        (last_dev versions == some f.version)) := by
  rw [classifyFile, if_pos h]
  congr 1
  have hlast : (last_dev versions == some f.version) = true →
      is_dev_version f.version = true := fun hl =>
    last_dev_is_dev versions f.version (eq_of_beq hl)
  rcases Bool.eq_false_or_eq_true
      (build_number f == max_build (files_by_version files f.version))
    with ht | ht <;>
  rcases Bool.eq_false_or_eq_true (is_dev_version f.version)
    with hd | hd <;>
  rcases Bool.eq_false_or_eq_true (last_dev versions == some f.version)
    with hl | hl <;>
    simp_all [spec_priority]

/-- C1 witness at a concrete snapshot: file `a1` of version `1.0.0`. -/
theorem c1_classifier_matches_spec_table_witness :
    exA1.version ∈ exVersions
    ∧ classifyFile exVersions exFiles exA1 =
        some (spec_priority
          (build_number exA1
            == max_build (files_by_version exFiles exA1.version))
          (is_dev_version exA1.version)
          (last_dev exVersions == some exA1.version)) :=
  ⟨by decide,
   c1_classifier_matches_spec_table exVersions exFiles exA1 (by decide)⟩

/-- C10: when every file's version occurs in the version sequence, each
file is assigned a priority in {0, 1, 2, 3, 4} and the sort-key lookup
cannot fail; a file whose version is absent is never assigned a priority,
and its presence makes the sort fail with a missing-key error. -/
theorem c10_classification_totality (versions : List (List Char))
    (files : List RawFile) :
    ((∀ f ∈ files, f.version ∈ versions) →
      (∀ p ∈ classifyAll versions files, ∃ n, p.2 = some n
        ∧ (n = 0 ∨ n = 1 ∨ n = 2 ∨ n = 3 ∨ n = 4))
      ∧ (trySort (classifyAll versions files)).isSome = true)
    ∧ (∀ f ∈ files, f.version ∉ versions →
        classifyFile versions files f = none)
    ∧ ((∃ f ∈ files, f.version ∉ versions) →
        trySort (classifyAll versions files) = none) := by
  refine ⟨?_, ?_, ?_⟩
  · intro hall
    constructor
    · intro p hp
      rw [classifyAll, List.mem_map] at hp
      obtain ⟨f, hf, rfl⟩ := hp
      rw [classifyFile, if_pos (hall f hf)]
      refine ⟨_, rfl, ?_⟩
      split
      · split
        · simp
        · simp
      · split
        · simp
        · split
          · simp
          · simp
    · have hc : (classifyAll versions files).all
          (fun p => p.2.isSome) = true := by
        rw [List.all_eq_true]
        intro p hp
        rw [classifyAll, List.mem_map] at hp
        obtain ⟨f, hf, rfl⟩ := hp
        simp [classifyFile, hall f hf]
      rw [trySort, if_pos hc]
      rfl
  · intro f hf hnot
    rw [classifyFile, if_neg hnot]
  · rintro ⟨f, hf, hnot⟩
    have hc : ¬ ((classifyAll versions files).all
        (fun p => p.2.isSome) = true) := by
      rw [List.all_eq_true]
      intro hAll
      have hfp := hAll (f, classifyFile versions files f)
        (by rw [classifyAll, List.mem_map]; exact ⟨f, hf, rfl⟩)
      rw [classifyFile, if_neg hnot] at hfp
      simp at hfp
    rw [trySort, if_neg hc]

/-- C10 witness: the interleaving snapshot sorts successfully; a snapshot
with an orphan version makes the sort fail. -/
theorem c10_classification_totality_witness :
    (trySort (classifyAll exVersions exFiles)).isSome = true
    ∧ trySort (classifyAll ["1.0.0".data]
        [⟨"9.9.9".data, 0, 0, 1, 1, "orphan".data⟩]) = none :=
  ⟨((c10_classification_totality exVersions exFiles).1 (by decide)).2,
   (c10_classification_totality ["1.0.0".data]
       [⟨"9.9.9".data, 0, 0, 1, 1, "orphan".data⟩]).2.2
     ⟨⟨"9.9.9".data, 0, 0, 1, 1, "orphan".data⟩, by decide, by decide⟩⟩

/-- C3, evaluated at the claimed input: for the version sequence
`["1.0", "1.0", "1.2dev1", "2.0", "2.1dev1", "2.1dev2"]` and the eight
files of the worked example, the classifier actually assigns the
priorities `[1, 4, 4, 4, 1, 4, 1, 4]` — not the
`[1, 4, 2, 4, 0, 2, 3, 4]` of the claim — because `is_dev_version`
demands a three-component numeric triplet, so the two-component strings
`1.2dev1`, `2.1dev1` and `2.1dev2` of the example are classified as
release versions; consequently the files selected by `max_priority = 1`
are the three non-top builds, not the claimed set. -/
theorem c3_worked_example_evaluation :
    (classifyAll wVersions wFiles).map (fun p => p.2) =
      [some 1, some 4, some 4, some 4, some 1, some 4, some 1, some 4]
    ∧ is_dev_version "1.2dev1".data = false
    ∧ is_dev_version "2.1dev1".data = false
    ∧ is_dev_version "2.1dev2".data = false
    ∧ ((classifyAll wVersions wFiles).filter
        (fun p => decide (p.2.getD 9 ≤ 1))).map (fun p => p.1.full_name) =
      ["pkg_v1.0_bld-0".data, "pkg_v2.1dev1_bld-0".data,
       "pkg_v2.1dev2_bld-0".data] := by
  decide

/-- Every element of a digit `takeWhile` block is a digit. -/
theorem mem_takeWhile_digit (l : List Char) (x : Char)
    (hx : x ∈ l.takeWhile Char.isDigit) : x.isDigit = true := by
  induction l with
  | nil => simp [List.takeWhile_nil] at hx
  | cons c cs ih =>
    rw [List.takeWhile_cons] at hx
    by_cases hc : c.isDigit = true
    · rw [if_pos hc] at hx
      rcases List.mem_cons.mp hx with rfl | hx2
      · exact hc
      · exact ih hx2
    · rw [if_neg hc] at hx
      simp at hx

/-- Soundness of the digit-run step: a successful `eat_digits` splits off
a non-empty all-digit block. -/
theorem eat_digits_sound (s r : List Char) (h : eat_digits s = some r) :
    ∃ a, a ≠ [] ∧ (∀ x ∈ a, x.isDigit = true) ∧ s = a ++ r := by
  cases s with
  | nil => simp [eat_digits] at h
  | cons c cs =>
    simp only [eat_digits] at h
    by_cases hc : c.isDigit = true
    · rw [if_pos hc] at h
      cases h
      refine ⟨c :: cs.takeWhile Char.isDigit, by simp, ?_, ?_⟩
      · intro x hx
        rcases List.mem_cons.mp hx with rfl | hx2
        · exact hc
        · exact mem_takeWhile_digit cs x hx2
      · rw [List.cons_append, List.takeWhile_append_dropWhile]
    · rw [if_neg hc] at h
      cases h

/-- `dropWhile` consumes exactly a digit block when the remainder does
not start with a digit. -/
theorem dropWhile_digit_append (a r : List Char)
    (ha : ∀ x ∈ a, x.isDigit = true)
    (hr : ∀ c, r.head? = some c → c.isDigit = false) :
    (a ++ r).dropWhile Char.isDigit = r := by
  induction a with
  | nil =>
    cases r with
    | nil => rfl
    | cons c cs =>
      have hc := hr c rfl
      simp [List.dropWhile_cons, hc]
  | cons x a2 ih =>
    have hx : x.isDigit = true := ha x (List.mem_cons_self x a2)
    rw [List.cons_append, List.dropWhile_cons, hx]
    simp only [if_true]
    exact ih (fun y hy => ha y (List.mem_cons_of_mem x hy))

/-- Completeness of the digit-run step when the remainder does not start
with a digit. -/
theorem eat_digits_complete (a r : List Char) (hne : a ≠ [])
    (ha : ∀ x ∈ a, x.isDigit = true)
    (hr : ∀ c, r.head? = some c → c.isDigit = false) :
    eat_digits (a ++ r) = some r := by
  cases a with
  | nil => exact absurd rfl hne
  | cons x a2 =>
    have hx : x.isDigit = true := ha x (List.mem_cons_self x a2)
    simp only [List.cons_append, eat_digits, hx, if_true]
    rw [dropWhile_digit_append a2 r
      (fun y hy => ha y (List.mem_cons_of_mem x hy)) hr]

/-- The digit-run step succeeds on a non-empty digit block followed by
anything at all. -/
theorem eat_digits_isSome (a r : List Char) (hne : a ≠ [])
    (ha : ∀ x ∈ a, x.isDigit = true) :
    (eat_digits (a ++ r)).isSome = true := by
  cases a with
  | nil => exact absurd rfl hne
  | cons x a2 =>
    have hx : x.isDigit = true := ha x (List.mem_cons_self x a2)
    simp [eat_digits, hx]

/-- Soundness of the literal-character step. -/
theorem eat_char_sound (ch : Char) (s r : List Char)
    (h : eat_char ch s = some r) : s = ch :: r := by
  cases s with
  | nil => simp [eat_char] at h
  | cons c cs =>
    simp only [eat_char] at h
    by_cases hc : (c == ch) = true
    · rw [if_pos hc] at h
      cases h
      rw [eq_of_beq hc]
    · rw [if_neg hc] at h
      cases h

/-- Completeness of the literal-character step. -/
theorem eat_char_complete (ch : Char) (r : List Char) :
    eat_char ch (ch :: r) = some r := by
  simp [eat_char]

/-- Soundness of the literal-sequence step. -/
theorem eat_lit_sound (lit : List Char) : ∀ (s r : List Char),
    eat_lit lit s = some r → s = lit ++ r := by
  induction lit with
  | nil =>
    intro s r h
    simp only [eat_lit] at h
    cases h
    rfl
  | cons l ls ih =>
    intro s r h
    cases s with
    | nil => simp [eat_lit] at h
    | cons c cs =>
      simp only [eat_lit] at h
      by_cases hc : (c == l) = true
      · rw [if_pos hc] at h
        rw [List.cons_append, ← ih cs r h, eq_of_beq hc]
      · rw [if_neg hc] at h
        cases h

/-- Completeness of the literal-sequence step. -/
theorem eat_lit_complete (lit : List Char) : ∀ (r : List Char),
    eat_lit lit (lit ++ r) = some r := by
  induction lit with
  | nil => intro r; rfl
  | cons l ls ih =>
    intro r
    simp only [List.cons_append, eat_lit, beq_self_eq_true, if_true]
    exact ih r

/-- Soundness of the `(dev|rc)` alternation. -/
theorem eat_tag_sound (s r : List Char) (h : eat_tag s = some r) :
    s = ['d', 'e', 'v'] ++ r ∨ s = ['r', 'c'] ++ r := by
  unfold eat_tag at h
  split at h
  · rename_i r2 heq
    cases h
    exact Or.inl (eat_lit_sound _ s _ heq)
  · exact Or.inr (eat_lit_sound _ s r h)

/-- The alternation accepts a literal `dev`. -/
theorem eat_tag_complete_dev (r : List Char) :
    eat_tag (['d', 'e', 'v'] ++ r) = some r := by
  have h2 : eat_lit (['d', 'e', 'v']) ('d' :: 'e' :: 'v' :: r) = some r :=
    eat_lit_complete (['d', 'e', 'v']) r
  simp [eat_tag, h2]

/-- The alternation accepts a literal `rc`. -/
theorem eat_tag_complete_rc (r : List Char) :
    eat_tag (['r', 'c'] ++ r) = some r := by
  have h1 : eat_lit (['d', 'e', 'v']) ('r' :: 'c' :: r) = none := rfl
  have h2 : eat_lit (['r', 'c']) ('r' :: 'c' :: r) = some r :=
    eat_lit_complete (['r', 'c']) r
  simp [eat_tag, h1, h2]

/-- Soundness of the `(dev|rc)\d+` tail. -/
theorem tag_digits_sound (s : List Char) (h : tag_digits s = true) :
    ∃ tag d rest, (tag = ['d', 'e', 'v'] ∨ tag = ['r', 'c'])
      ∧ d ≠ [] ∧ (∀ x ∈ d, x.isDigit = true)
      ∧ s = tag ++ (d ++ rest) := by
  unfold tag_digits at h
  split at h
  · rename_i r2 heq
    rw [Option.isSome_iff_exists] at h
    obtain ⟨r3, hr3⟩ := h
    obtain ⟨d, hdne, hddig, hdec⟩ := eat_digits_sound r2 r3 hr3
    rcases eat_tag_sound s r2 heq with hs | hs
    · exact ⟨['d', 'e', 'v'], d, r3, Or.inl rfl, hdne, hddig,
        by rw [hs, hdec]⟩
    · exact ⟨['r', 'c'], d, r3, Or.inr rfl, hdne, hddig,
        by rw [hs, hdec]⟩
  · cases h

/-- Completeness of the `(dev|rc)\d+` tail. -/
theorem tag_digits_complete (tag d rest : List Char)
    (htag : tag = ['d', 'e', 'v'] ∨ tag = ['r', 'c'])
    (hdne : d ≠ []) (hd : ∀ x ∈ d, x.isDigit = true) :
    tag_digits (tag ++ (d ++ rest)) = true := by
  rcases htag with rfl | rfl
  · unfold tag_digits
    rw [eat_tag_complete_dev]
    exact eat_digits_isSome d rest hdne hd
  · unfold tag_digits
    rw [eat_tag_complete_rc]
    exact eat_digits_isSome d rest hdne hd

/-- Soundness of the `\.?(dev|rc)\d+` tail. -/
theorem opt_dot_tag_sound (s : List Char) (h : opt_dot_tag s = true) :
    ∃ dot tag d rest, (dot = [] ∨ dot = ['.'])
      ∧ (tag = ['d', 'e', 'v'] ∨ tag = ['r', 'c'])
      ∧ d ≠ [] ∧ (∀ x ∈ d, x.isDigit = true)
      ∧ s = dot ++ (tag ++ (d ++ rest)) := by
  unfold opt_dot_tag at h
  rw [Bool.or_eq_true] at h
  rcases h with h1 | h1
  · split at h1
    · rename_i r2 heq
      obtain ⟨tag, d, rest, htag, hdne, hd, hr2⟩ := tag_digits_sound r2 h1
      refine ⟨['.'], tag, d, rest, Or.inr rfl, htag, hdne, hd, ?_⟩
      rw [eat_char_sound '.' s r2 heq, hr2]
      rfl
    · cases h1
  · obtain ⟨tag, d, rest, htag, hdne, hd, hs⟩ := tag_digits_sound s h1
    refine ⟨[], tag, d, rest, Or.inl rfl, htag, hdne, hd, ?_⟩
    rw [hs]
    rfl

/-- Completeness of the `\.?(dev|rc)\d+` tail. -/
theorem opt_dot_tag_complete (dot tag d rest : List Char)
    (hdot : dot = [] ∨ dot = ['.'])
    (htag : tag = ['d', 'e', 'v'] ∨ tag = ['r', 'c'])
    (hdne : d ≠ []) (hd : ∀ x ∈ d, x.isDigit = true) :
    opt_dot_tag (dot ++ (tag ++ (d ++ rest))) = true := by
  have htd : tag_digits (tag ++ (d ++ rest)) = true :=
    tag_digits_complete tag d rest htag hdne hd
  rcases hdot with rfl | rfl
  · unfold opt_dot_tag
    rw [Bool.or_eq_true]
    right
    rw [List.nil_append]
    exact htd
  · unfold opt_dot_tag
    rw [Bool.or_eq_true]
    left
    have he : eat_char '.' (['.'] ++ (tag ++ (d ++ rest)))
        = some (tag ++ (d ++ rest)) :=
      eat_char_complete '.' (tag ++ (d ++ rest))
    rw [he]
    exact htd

/-- C5: `is_dev_version` returns true exactly on the strings matched by
the spec's pattern: a numeric triplet, an optional dot, a literal `dev`
or `rc` tag and trailing digits.  "Matches" is the semantics of the
source's `re.search` with its `^` anchor: the pattern must hold at the
start of the string and further characters may follow the tag digits;
every other string is classified as a release version. -/
theorem c5_is_dev_version_pattern (s : List Char) :
    is_dev_version s = true ↔ dev_pattern s := by
  constructor
  · intro h
    unfold is_dev_version at h
    split at h
    · cases h
    · rename_i s1 h1
      split at h
      · cases h
      · rename_i s2 h2
        split at h
        · cases h
        · rename_i s3 h3
          split at h
          · cases h
          · rename_i s4 h4
            split at h
            · cases h
            · rename_i s5 h5
              obtain ⟨a, hane, hadig, hsa⟩ := eat_digits_sound s s1 h1
              have hs1 : s1 = '.' :: s2 := eat_char_sound '.' s1 s2 h2
              obtain ⟨b, hbne, hbdig, hsb⟩ := eat_digits_sound s2 s3 h3
              have hs3 : s3 = '.' :: s4 := eat_char_sound '.' s3 s4 h4
              obtain ⟨c, hcne, hcdig, hsc⟩ := eat_digits_sound s4 s5 h5
              obtain ⟨dot, tag, d, rest, hdot, htag, hdne, hddig, hs5⟩ :=
                opt_dot_tag_sound s5 h
              refine ⟨a, b, c, dot, tag, d, rest, hane, hadig, hbne, hbdig,
                hcne, hcdig, hdot, htag, hdne, hddig, ?_⟩
              rw [hsa, hs1, hsb, hs3, hsc, hs5]
  · rintro ⟨a, b, c, dot, tag, d, rest, hane, hadig, hbne, hbdig, hcne,
      hcdig, hdot, htag, hdne, hddig, rfl⟩
    have hr1 : ∀ ch : Char,
        ('.' :: (b ++ '.' :: (c ++ (dot ++ (tag ++ (d ++ rest)))))).head?
          = some ch → ch.isDigit = false := by
      intro ch hch
      rw [List.head?_cons, Option.some.injEq] at hch
      rw [← hch]
      decide
    have hr3 : ∀ ch : Char,
        ('.' :: (c ++ (dot ++ (tag ++ (d ++ rest))))).head? = some ch →
        ch.isDigit = false := by
      intro ch hch
      rw [List.head?_cons, Option.some.injEq] at hch
      rw [← hch]
      decide
    have hr5 : ∀ ch : Char,
        (dot ++ (tag ++ (d ++ rest))).head? = some ch →
        ch.isDigit = false := by
      rcases hdot with rfl | rfl <;> rcases htag with rfl | rfl <;>
        · intro ch hch
          simp only [List.nil_append, List.cons_append,
            List.head?_cons, Option.some.injEq] at hch
          rw [← hch]
          decide
    have e1 : eat_digits
        (a ++ '.' :: (b ++ '.' :: (c ++ (dot ++ (tag ++ (d ++ rest))))))
        = some ('.' :: (b ++ '.' :: (c ++ (dot ++ (tag ++ (d ++ rest)))))) :=
      eat_digits_complete a _ hane hadig hr1
    have e2 : eat_char '.'
        ('.' :: (b ++ '.' :: (c ++ (dot ++ (tag ++ (d ++ rest))))))
        = some (b ++ '.' :: (c ++ (dot ++ (tag ++ (d ++ rest))))) :=
      eat_char_complete '.' _
    have e3 : eat_digits (b ++ '.' :: (c ++ (dot ++ (tag ++ (d ++ rest)))))
        = some ('.' :: (c ++ (dot ++ (tag ++ (d ++ rest))))) :=
      eat_digits_complete b _ hbne hbdig hr3
    have e4 : eat_char '.' ('.' :: (c ++ (dot ++ (tag ++ (d ++ rest)))))
        = some (c ++ (dot ++ (tag ++ (d ++ rest)))) :=
      eat_char_complete '.' _
    have e5 : eat_digits (c ++ (dot ++ (tag ++ (d ++ rest))))
        = some (dot ++ (tag ++ (d ++ rest))) :=
      eat_digits_complete c _ hcne hcdig hr5
    unfold is_dev_version
    simp only [e1, e2, e3, e4, e5]
    exact opt_dot_tag_complete dot tag d rest hdot htag hdne hddig
